import Mathlib

/-!
Verification of the EAX AEAD core (`src/lib.rs`: `Eax::encrypt`,
`Eax::decrypt`, `Eax::cmac_with_iv`) against its specification.

The core of the repository orchestrates three external primitives, which
the spec declares out of scope (external collaborators):
  - the CMAC/OMAC1 MAC primitive (the `cmac` crate): a deterministic
    keyed function from an arbitrary byte sequence to a 16-byte code,
    consumed through a streaming interface where successive `input`
    calls are equivalent to MAC-ing the concatenation;
  - the counter-mode stream transform (the `ctr` crate): a keystream
    determined by key and 16-byte initial counter, applied by XOR;
  - constant-time byte-sequence comparison (the `subtle` crate):
    equality of equal-length byte slices, `0` when lengths differ.
We embed the core parametrically over the first two (a `Prims`
structure) and give the interface semantics of each external primitive
explicitly.  Bytes are Nats; XOR of bytes cannot overflow, and the toy
instantiation used for concrete evaluation reduces modulo 256
explicitly.
-/

/-- External primitives the EAX core is parameterized over:
a CMAC function (16-byte output) and a CTR keystream (byte at a given
stream position, for a given key and 16-byte initial counter). -/
structure Prims where
  cmacFn : List Nat → List Nat → List Nat
  keystream : List Nat → List Nat → Nat → Nat
  cmacFn_len : ∀ k m, (cmacFn k m).length = 16

namespace Eax

/-- State of a streaming CMAC computation (`Cmac::<C>::new(key)`
followed by `input` calls): the key and the bytes fed so far.  The
`Mac` trait contract of the `cmac` crate makes `input` act by
concatenation and `result` equal the one-shot MAC over all bytes fed. -/
structure CmacState where
  key : List Nat
  buf : List Nat

/-- Model of `Cmac::<C>::new(key)`. -/
def cmacNew (key : List Nat) : CmacState := ⟨key, []⟩

/-- Model of `mac.input(data)`: feed further bytes into the MAC. -/
def cmacInput (s : CmacState) (data : List Nat) : CmacState :=
  ⟨s.key, s.buf ++ data⟩

/-- Model of `mac.result()`: finalize, yielding the MAC over everything
fed so far. -/
def cmacResult (P : Prims) (s : CmacState) : List Nat :=
  P.cmacFn s.key s.buf

/-- Translation of `Eax::cmac_with_iv(key, iv, data)` from `src/lib.rs`:
feeds 15 zero bytes, then the byte `iv`, then `data` into one streaming
CMAC computation and finalizes it. -/
def cmac_with_iv (P : Prims) (key : List Nat) (iv : Nat) (data : List Nat) :
    List Nat :=
  cmacResult P
    (cmacInput (cmacInput (cmacInput (cmacNew key) (List.replicate 15 0))
      [iv]) data)

/-- Counter-mode keystream application starting at stream position `i`:
each byte is XORed with the keystream byte at its position. -/
def ctrApplyFrom (ks : Nat → Nat) : Nat → List Nat → List Nat
  | _, [] => []
  | i, b :: rest => (b ^^^ ks i % 256) :: ctrApplyFrom ks (i + 1) rest

/-- Model of `ctr::Ctr128::<C>::new(key, &iv)` followed by
`cipher.apply_keystream(data)`: XOR `data` with the keystream determined
by `key` and the 16-byte initial counter `iv`. -/
def ctrApply (P : Prims) (key iv data : List Nat) : List Nat :=
  ctrApplyFrom (P.keystream key iv) 0 data

/-- Byte-wise XOR of two equal-length byte sequences
(`GenericArray::zip` with the XOR operator in the source). -/
def xorBytes (a b : List Nat) : List Nat :=
  List.zipWith (fun x y => x ^^^ y) a b

/-- Model of `ct_eq` on byte slices from the `subtle` crate, as a
boolean function (its timing behaviour is outside the embedding):
`0` when the lengths differ, otherwise the conjunction of the byte-wise
equalities. -/
def ct_eq (a b : List Nat) : Bool :=
  a.length == b.length && (List.zipWith (fun x y => x == y) a b).all id

/-- Translation of `Eax::encrypt(key, nonce, header, data)` from
`src/lib.rs`.  The Rust function mutates `data` in place and returns
the tag; the embedding returns the pair (final data buffer, tag). -/
def encrypt (P : Prims) (key nonce header data : List Nat) :
    List Nat × List Nat :=
  let n := cmac_with_iv P key 0 nonce
  let h := cmac_with_iv P key 1 header
  let enc := ctrApply P key n data
  let c := cmac_with_iv P key 2 enc
  (enc, xorBytes (xorBytes n h) c)

/-- Translation of `Eax::decrypt(key, nonce, header, data, mac)` from
`src/lib.rs`.  Returns `none` when `&mac2[..mac.len()]` would panic
(slice index out of range, i.e. `mac` longer than the computed tag),
otherwise `some (success, final data buffer)`: `(false, data)` on tag
mismatch, `(true, decrypted data)` on match. -/
def decrypt (P : Prims) (key nonce header data mac : List Nat) :
    Option (Bool × List Nat) :=
  let n := cmac_with_iv P key 0 nonce
  let h := cmac_with_iv P key 1 header
  let c := cmac_with_iv P key 2 data
  let mac2 := xorBytes (xorBytes n h) c
  if mac.length ≤ mac2.length then
    let mac2t := mac2.take mac.length
    if ct_eq mac mac2t then some (true, ctrApply P key n data)
    else some (false, data)
  else none

/-- Candidate tag recomputed by `decrypt` before truncation:
`n XOR h XOR c` with `c` taken over the (still encrypted) buffer. -/
def candTag (P : Prims) (key nonce header data : List Nat) : List Nat :=
  xorBytes (xorBytes (cmac_with_iv P key 0 nonce)
    (cmac_with_iv P key 1 header)) (cmac_with_iv P key 2 data)

/-- Spec-side restatement of the EAX encryption composition, written
directly from the algorithm steps in section 4.2 of the spec, to be
compared with the translation of the source. -/
def eaxSpecEncrypt (P : Prims) (key nonce header data : List Nat) :
    List Nat × List Nat :=
  let N := P.cmacFn key (List.replicate 15 0 ++ [0] ++ nonce)
  let H := P.cmacFn key (List.replicate 15 0 ++ [1] ++ header)
  let ct := ctrApply P key N data
  let C := P.cmacFn key (List.replicate 15 0 ++ [2] ++ ct)
  (ct, xorBytes (xorBytes N H) C)

/-- A concrete instantiation of the external primitives, used only to
evaluate the core on explicit inputs. -/
def toyPrims : Prims where
  cmacFn := fun k m =>
    (List.range 16).map
      (fun i => (k.sum + m.length * (i + 1) + m.sum * (i + 3)) % 256)
  keystream := fun k iv i => (k.sum + iv.sum + i) % 256
  cmacFn_len := by intro k m; simp

/-! ## Helper lemmas -/

/-- The streaming computation in `cmac_with_iv` equals the one-shot MAC
over the concatenation of its three inputs. -/
theorem cmac_with_iv_eq (P : Prims) (key : List Nat) (iv : Nat)
    (data : List Nat) :
    cmac_with_iv P key iv data
      = P.cmacFn key (List.replicate 15 0 ++ [iv] ++ data) := by
  simp [cmac_with_iv, cmacResult, cmacInput, cmacNew]

/-- Model of constant-time comparison decides plain equality. -/
theorem ct_eq_iff (a b : List Nat) : ct_eq a b = true ↔ a = b := by
  induction a generalizing b with
  | nil =>
    cases b <;> simp [ct_eq]
  | cons x xs ih =>
    cases b with
    | nil => simp [ct_eq]
    | cons y ys =>
      simp only [ct_eq, List.length_cons, List.zipWith_cons_cons,
        List.all_cons, id_eq, Bool.and_eq_true, beq_iff_eq]
      constructor
      · rintro ⟨hl, hxy, hrest⟩
        have hxs : xs = ys := by
          refine (ih ys).mp ?_
          simp only [ct_eq, Bool.and_eq_true, beq_iff_eq]
          exact ⟨by omega, hrest⟩
        simp [hxy, hxs]
      · intro h
        injection h with h1 h2
        subst h1; subst h2
        refine ⟨rfl, rfl, ?_⟩
        have h3 := (ih xs).mpr rfl
        simp only [ct_eq, Bool.and_eq_true] at h3
        exact h3.2

/-- Applying the same keystream twice from the same position restores
the original bytes. -/
theorem ctrApplyFrom_involutive (ks : Nat → Nat) (d : List Nat) :
    ∀ i, ctrApplyFrom ks i (ctrApplyFrom ks i d) = d := by
  induction d with
  | nil => intro i; rfl
  | cons b rest ih =>
    intro i
    simp [ctrApplyFrom, ih (i + 1), Nat.xor_assoc]

/-- Counter-mode application is an involution. -/
theorem ctrApply_involutive (P : Prims) (key iv d : List Nat) :
    ctrApply P key iv (ctrApply P key iv d) = d :=
  ctrApplyFrom_involutive _ d 0

/-- The candidate tag always has the native MAC width. -/
theorem candTag_length (P : Prims) (key nonce header data : List Nat) :
    (candTag P key nonce header data).length = 16 := by
  simp [candTag, xorBytes, cmac_with_iv_eq, P.cmacFn_len]

/-- Byte-wise XOR with a fixed right operand is injective on lists of
equal length that is at most the length of that operand. -/
theorem xorBytes_right_cancel (c : List Nat) : ∀ a b : List Nat,
    a.length = b.length → a.length ≤ c.length →
    xorBytes a c = xorBytes b c → a = b := by
  induction c with
  | nil =>
    intro a b hab ha
    cases a with
    | nil => cases b with
      | nil => intro; rfl
      | cons y ys => simp at hab
    | cons x xs => simp at ha
  | cons z zs ih =>
    intro a b hab ha hx
    cases a with
    | nil =>
      cases b with
      | nil => rfl
      | cons y ys => simp at hab
    | cons x xs =>
      cases b with
      | nil => simp at hab
      | cons y ys =>
        simp only [xorBytes, List.zipWith, List.cons.injEq] at hx
        have hxy : x = y := by
          have := congrArg (fun t => t ^^^ z) hx.1
          simpa [Nat.xor_assoc] using this
        have : xs = ys := by
          refine ih xs ys ?_ ?_ hx.2
          · simpa using hab
          · simpa using ha
        simp [hxy, this]

/-- Unfolded form of `decrypt`, phrased with `candTag`. -/
theorem decrypt_eq (P : Prims) (key nonce header data mac : List Nat) :
    decrypt P key nonce header data mac
      = if mac.length ≤ (candTag P key nonce header data).length then
          (if ct_eq mac ((candTag P key nonce header data).take mac.length)
            then some (true, ctrApply P key (cmac_with_iv P key 0 nonce) data)
            else some (false, data))
        else none := by
  rfl

/-- The MAC derivation helper always yields the native 16-byte width. -/
theorem cmac_with_iv_length (P : Prims) (key : List Nat) (iv : Nat)
    (d : List Nat) : (cmac_with_iv P key iv d).length = 16 := by
  rw [cmac_with_iv_eq]; exact P.cmacFn_len _ _

/-! ## Claims -/

/-- C1: round trip — for every key, nonce, header and plaintext,
encrypting a buffer and then decrypting the resulting ciphertext with
the full-length tag succeeds and restores exactly the original
plaintext. -/
theorem C1_round_trip (P : Prims) (key nonce header p : List Nat) :
    decrypt P key nonce header
      (encrypt P key nonce header p).1 (encrypt P key nonce header p).2
      = some (true, p) := by
  rw [decrypt_eq]
  have h1 : (encrypt P key nonce header p).2
      = candTag P key nonce header (encrypt P key nonce header p).1 := rfl
  rw [h1, List.take_length, if_pos le_rfl, if_pos ((ct_eq_iff _ _).mpr rfl)]
  have h2 : (encrypt P key nonce header p).1
      = ctrApply P key (cmac_with_iv P key 0 nonce) p := rfl
  rw [h2, ctrApply_involutive]

/-- C2: verify before decrypt, with atomicity on failure — under the
boundary precondition on the mac length, a mismatch against the
truncated candidate tag returns failure with the buffer bit-for-bit
unchanged, and only a match runs the counter-mode transform and returns
success. -/
theorem C2_verify_before_decrypt (P : Prims)
    (key nonce header data mac : List Nat) (hm : mac.length ≤ 16) :
    (mac ≠ (candTag P key nonce header data).take mac.length →
        decrypt P key nonce header data mac = some (false, data)) ∧
    (mac = (candTag P key nonce header data).take mac.length →
        decrypt P key nonce header data mac
          = some (true, ctrApply P key (cmac_with_iv P key 0 nonce) data)) := by
  constructor
  · intro hne
    rw [decrypt_eq, if_pos (by rw [candTag_length]; exact hm),
      if_neg (fun hc => hne ((ct_eq_iff _ _).mp hc))]
  · intro he
    rw [decrypt_eq, if_pos (by rw [candTag_length]; exact hm),
      if_pos ((ct_eq_iff _ _).mpr he)]

/-- C2 witness: a concrete mismatching one-byte mac is rejected and the
buffer is returned unchanged. -/
theorem C2_witness :
    decrypt toyPrims [1] [0] [] [9] [7] = some (false, [9]) :=
  (C2_verify_before_decrypt toyPrims [1] [0] [] [9] [7] (by decide)).1
    (by decide)

/-- C3: encrypt follows the EAX composition exactly — the translation of
the source equals the composition written directly from the algorithm
steps of the spec: nonce-MAC, header-MAC, counter-mode transform seeded
by the nonce-MAC, ciphertext-MAC, and the byte-wise XOR of the three
MACs as the tag. -/
theorem C3_encrypt_composition (P : Prims) (key nonce header data : List Nat) :
    encrypt P key nonce header data = eaxSpecEncrypt P key nonce header data := by
  simp [encrypt, eaxSpecEncrypt, cmac_with_iv_eq]

/-- C4: domain-separated MAC derivation — for every key, domain tag and
message, the helper produces exactly the MAC primitive output over the
single concatenated message (15 zero bytes) ++ (the tag byte) ++
(the message), i.e. one continuous MAC computation over that
concatenation. -/
theorem C4_domain_separated_mac (P : Prims) (key : List Nat) (t : Nat)
    (m : List Nat) :
    cmac_with_iv P key t m
      = P.cmacFn key (List.replicate 15 0 ++ [t] ++ m) :=
  cmac_with_iv_eq P key t m

/-- C5: truncated-tag decrypt succeeds iff the prefix matches — for a
supplied mac no longer than the native MAC width, decrypt succeeds if
and only if the mac equals the first mac-length bytes of the recomputed
candidate tag; later candidate bytes play no role. -/
theorem C5_truncated_tag_iff (P : Prims)
    (key nonce header data mac : List Nat) (hm : mac.length ≤ 16) :
    decrypt P key nonce header data mac
        = some (true, ctrApply P key (cmac_with_iv P key 0 nonce) data)
      ↔ mac = (candTag P key nonce header data).take mac.length := by
  rw [decrypt_eq, if_pos (by rw [candTag_length]; exact hm)]
  by_cases hc : mac = (candTag P key nonce header data).take mac.length
  · rw [if_pos ((ct_eq_iff _ _).mpr hc)]
    exact iff_of_true rfl hc
  · rw [if_neg (fun h => hc ((ct_eq_iff _ _).mp h))]
    exact iff_of_false (by simp) hc

/-- C5 witness: the one-byte prefix of the candidate tag is accepted and
the buffer is decrypted. -/
theorem C5_witness :
    decrypt toyPrims [1] [0] [] [9] [53]
      = some (true, ctrApply toyPrims [1] (cmac_with_iv toyPrims [1] 0 [0]) [9]) :=
  (C5_truncated_tag_iff toyPrims [1] [0] [] [9] [53] (by decide)).mpr
    (by decide)

/-- C6: precondition enforcement at the boundary — under the
precondition that the supplied mac is no longer than the native MAC
width, the truncation of the candidate tag is in bounds and decrypt is
total with no failure mode other than authentication failure; a longer
mac is signaled at call time (the slice panic, modelled as `none`)
rather than classified as an authentication outcome. -/
theorem C6_mac_precondition (P : Prims)
    (key nonce header data mac : List Nat) :
    (mac.length ≤ 16 →
      mac.length ≤ (candTag P key nonce header data).length ∧
      (decrypt P key nonce header data mac = some (false, data) ∨
       decrypt P key nonce header data mac
         = some (true, ctrApply P key (cmac_with_iv P key 0 nonce) data))) ∧
    (16 < mac.length → decrypt P key nonce header data mac = none) := by
  constructor
  · intro hm
    have hb : mac.length ≤ (candTag P key nonce header data).length := by
      rw [candTag_length]; exact hm
    refine ⟨hb, ?_⟩
    rw [decrypt_eq, if_pos hb]
    by_cases hc : ct_eq mac ((candTag P key nonce header data).take mac.length)
        = true
    · exact Or.inr (by rw [if_pos hc])
    · exact Or.inl (by rw [if_neg hc])
  · intro hm
    rw [decrypt_eq, if_neg (by rw [candTag_length]; omega)]

/-- C6 witness: a one-byte mac is within bounds and decrypt returns an
authentication outcome (here a rejection) rather than panicking. -/
theorem C6_witness :
    ([7] : List Nat).length ≤ (candTag toyPrims [1] [0] [] [5]).length ∧
      (decrypt toyPrims [1] [0] [] [5] [7] = some (false, [5]) ∨
       decrypt toyPrims [1] [0] [] [5] [7]
         = some (true, ctrApply toyPrims [1] (cmac_with_iv toyPrims [1] 0 [0]) [5])) :=
  (C6_mac_precondition toyPrims [1] [0] [] [5] [7]).1 (by decide)

/-- C7: tag determinism — two calls of encrypt on equal keys, nonces,
headers and plaintexts produce bit-for-bit identical ciphertext buffers
and tags; the embedding retains no state between calls. -/
theorem C7_determinism (P : Prims) (k1 k2 n1 n2 h1 h2 d1 d2 : List Nat)
    (hk : k1 = k2) (hn : n1 = n2) (hh : h1 = h2) (hd : d1 = d2) :
    encrypt P k1 n1 h1 d1 = encrypt P k2 n2 h2 d2 := by
  rw [hk, hn, hh, hd]

/-- C7 witness: two calls at a concrete input coincide. -/
theorem C7_witness :
    encrypt toyPrims [1] [2] [3] [4] = encrypt toyPrims [1] [2] [3] [4] :=
  C7_determinism toyPrims [1] [1] [2] [2] [3] [3] [4] [4] rfl rfl rfl rfl

/-- C8 counterexample: with the toy primitives, key `[1]`, empty header
and empty plaintext, the two distinct nonces `[0]` and `[1]` give equal
(empty) ciphertexts, so different nonces do not always produce different
ciphertexts. -/
theorem C8_counterexample :
    ([0] : List Nat) ≠ [1] ∧
      (encrypt toyPrims [1] [0] [] []).1 = (encrypt toyPrims [1] [1] [] []).1 := by
  exact ⟨by decide, rfl⟩

/-- C8 (amended): whenever the two nonces derive distinct nonce-MACs,
the two encryptions differ as (ciphertext, tag) pairs, and whenever
their ciphertexts coincide (as they must for empty plaintext) their tags
differ; equality of the ciphertext buffers themselves is not
guaranteed. -/
theorem C8_nonce_sensitivity (P : Prims) (key header p n1 n2 : List Nat)
    (hne : cmac_with_iv P key 0 n1 ≠ cmac_with_iv P key 0 n2) :
    ((encrypt P key n1 header p).1 = (encrypt P key n2 header p).1 →
        (encrypt P key n1 header p).2 ≠ (encrypt P key n2 header p).2) ∧
      encrypt P key n1 header p ≠ encrypt P key n2 header p := by
  have key_tag : ∀ ct : List Nat,
      xorBytes (xorBytes (cmac_with_iv P key 0 n1) (cmac_with_iv P key 1 header))
          (cmac_with_iv P key 2 ct)
        ≠ xorBytes (xorBytes (cmac_with_iv P key 0 n2) (cmac_with_iv P key 1 header))
          (cmac_with_iv P key 2 ct) := by
    intro ct htag
    have len1 : (xorBytes (cmac_with_iv P key 0 n1) (cmac_with_iv P key 1 header)).length
        = (xorBytes (cmac_with_iv P key 0 n2) (cmac_with_iv P key 1 header)).length := by
      simp [xorBytes, cmac_with_iv_length]
    have len2 : (xorBytes (cmac_with_iv P key 0 n1) (cmac_with_iv P key 1 header)).length
        ≤ (cmac_with_iv P key 2 ct).length := by
      simp [xorBytes, cmac_with_iv_length]
    have h1 := xorBytes_right_cancel (cmac_with_iv P key 2 ct) _ _ len1 len2 htag
    have len3 : (cmac_with_iv P key 0 n1).length
        = (cmac_with_iv P key 0 n2).length := by
      simp [cmac_with_iv_length]
    have len4 : (cmac_with_iv P key 0 n1).length
        ≤ (cmac_with_iv P key 1 header).length := by
      simp [cmac_with_iv_length]
    exact hne (xorBytes_right_cancel (cmac_with_iv P key 1 header) _ _ len3 len4 h1)
  have e1 : (encrypt P key n1 header p).2
      = xorBytes (xorBytes (cmac_with_iv P key 0 n1) (cmac_with_iv P key 1 header))
          (cmac_with_iv P key 2 (encrypt P key n1 header p).1) := rfl
  have e2 : (encrypt P key n2 header p).2
      = xorBytes (xorBytes (cmac_with_iv P key 0 n2) (cmac_with_iv P key 1 header))
          (cmac_with_iv P key 2 (encrypt P key n2 header p).1) := rfl
  constructor
  · intro hct htag
    rw [e1, e2, hct] at htag
    exact key_tag _ htag
  · intro heq
    by_cases hct : (encrypt P key n1 header p).1 = (encrypt P key n2 header p).1
    · have htag : (encrypt P key n1 header p).2 = (encrypt P key n2 header p).2 := by
        rw [heq]
      rw [e1, e2, hct] at htag
      exact key_tag _ htag
    · exact hct (by rw [heq])

/-- C8 witness: with the toy primitives the two nonce-MACs of `[0]` and
`[1]` differ, so the two encryptions of the empty plaintext differ — in
the tag, since their ciphertexts are both empty. -/
theorem C8_witness :
    ((encrypt toyPrims [1] [0] [] []).1 = (encrypt toyPrims [1] [1] [] []).1 →
        (encrypt toyPrims [1] [0] [] []).2 ≠ (encrypt toyPrims [1] [1] [] []).2) ∧
      encrypt toyPrims [1] [0] [] [] ≠ encrypt toyPrims [1] [1] [] [] :=
  C8_nonce_sensitivity toyPrims [1] [] [] [0] [1] (by decide)

/-- C10: a zero-length mac bypasses authentication — for every key,
nonce, header and buffer, decrypt with an empty mac compares two empty
sequences, always succeeds, and applies the counter-mode transform to
the buffer. -/
theorem C10_zero_length_mac (P : Prims) (key nonce header data : List Nat) :
    decrypt P key nonce header data []
      = some (true, ctrApply P key (cmac_with_iv P key 0 nonce) data) := by
  rw [decrypt_eq, if_pos (by simp), if_pos (by simp [ct_eq])]

end Eax
